import Mathlib

/-!
Shallow embedding of `quant/data.py` (thenextquant): the MongoDB-backed
data-access layer for klines, asset balances, asset snapshots and orders.

Documents are modelled as association lists from field names to values; the
external document-store primitives (`find_one`, `get_list`, `update` of
`MongoDBBase`, which is not part of this repository's source tree) are
modelled from the specification's collaborator interface.
-/

namespace Quant

/-- A field value stored in a document: a string, an integer (timestamps,
prices, counts), or a per-currency balance triple
`{"free": .., "locked": .., "total": ..}` as documented in the asset data
struct of `data.py`. -/
inductive Value where
  | str : String → Value
  | int : Int → Value
  | bal : String → String → String → Value
deriving DecidableEq, Repr

/-- A document is an ordered association list of named fields. -/
abbrev Doc := List (String × Value)

/-- Read a field: first occurrence of the key wins. -/
def Doc.getField : Doc → String → Option Value
  | [], _ => none
  | (k', v) :: rest, k => if k' == k then some v else Doc.getField rest k

/-- Mongo `$set` on one field: replace the first occurrence in place, or
append the field when absent. -/
def Doc.setField (d : Doc) (k : String) (v : Value) : Doc :=
  match d with
  | [] => [(k, v)]
  | (k', v') :: rest =>
    if k' == k then (k, v) :: rest
    else (k', v') :: Doc.setField rest k v

/-- Remove the named fields: used both for Mongo `$unset` and for
`0`-valued projections (`fields={"create_time": 0, ...}`). -/
def Doc.dropFields (d : Doc) (ex : List String) : Doc :=
  d.filter (fun p => !(ex.contains p.1))

/-- Apply a Mongo `$set` document: set each pair in order. -/
def applySets : Doc → List (String × Value) → Doc
  | d, [] => d
  | d, (k, v) :: rest => applySets (d.setField k v) rest

/-- One condition of a Mongo filter document: `{field: value}` equality or a
`{"$gte": lo, "$lte": hi}` range on an integer field. -/
inductive Cond where
  | eqv : Value → Cond
  | range : Option Int → Option Int → Cond
deriving DecidableEq, Repr

/-- A Mongo filter document (`spec` in `data.py`). -/
abbrev Filter := List (String × Cond)

/-- Whether a field's value satisfies one condition. A range condition only
holds for a present integer field, mirroring Mongo's comparison of numbers. -/
def condHolds (v : Option Value) : Cond → Bool
  | .eqv w => v == some w
  | .range lo hi =>
    match v with
    | some (.int n) =>
      (lo.all fun a => decide (a ≤ n)) && (hi.all fun b => decide (n ≤ b))
    | _ => false

/-- Whether a document matches a filter: every condition holds. -/
def docMatches (d : Doc) (f : Filter) : Bool :=
  f.all (fun p => condHolds (d.getField p.1) p.2)

/-- The integer sort key a document exposes for a field (absent or
non-integer fields sort below every integer, like Mongo's missing fields). -/
def keyVal (d : Doc) (k : String) : Option Int :=
  match d.getField k with
  | some (.int n) => some n
  | _ => none

/-- Strict order on sort keys, an absent key ranking lowest. -/
def optLt : Option Int → Option Int → Bool
  | none, none => false
  | none, some _ => true
  | some _, none => false
  | some a, some b => decide (a < b)

/-- Non-strict order on sort keys. -/
def optLe (a b : Option Int) : Bool := !optLt b a

/-- Modelled from the spec: the collaborator primitive
`findOne(filter, sort, projection, partition)` used with a descending
single-field sort — it returns a matching document whose sort key is maximal
among the matches, or absent when nothing matches. The fold keeps the
first document with the maximal key. -/
def pickStep (k : String) (best : Option Doc) (d : Doc) : Option Doc :=
  match best with
  | none => some d
  | some b => if optLt (keyVal b k) (keyVal d k) then some d else some b

/-- `findOne` with a descending single-field sort, built on `pickStep`. -/
def findOneSortDesc (docs : List Doc) (f : Filter) (k : String) : Option Doc :=
  (docs.filter (fun d => docMatches d f)).foldl (pickStep k) none

/-- Insert a document into a list that is ascending on the key `k`,
keeping it ascending. -/
def insertAsc (k : String) (d : Doc) : List Doc → List Doc
  | [] => [d]
  | e :: rest =>
    if optLe (keyVal e k) (keyVal d k) then e :: insertAsc k d rest
    else d :: e :: rest

/-- Sort documents ascending on the key `k` (insertion sort). -/
def sortAscBy (k : String) : List Doc → List Doc
  | [] => []
  | d :: rest => insertAsc k d (sortAscBy k rest)

/-- The equality fields of a filter, used by Mongo to seed an upserted
document. -/
def eqDoc (f : Filter) : Doc :=
  f.filterMap (fun p => match p.2 with | .eqv v => some (p.1, v) | _ => none)

/-- Update the first document matching `f` by `tr`; `none` when no document
matches. -/
def updateFirst (docs : List Doc) (f : Filter) (tr : Doc → Doc) :
    Option (List Doc) :=
  match docs with
  | [] => none
  | d :: rest =>
    if docMatches d f then some (tr d :: rest)
    else (updateFirst rest f tr).map (fun l => d :: l)

/-- Modelled from the spec: the collaborator primitive
`update(filter, set-fields, unset-field-names, upsert flag, partition)`
(`MongoDBBase.update`, not under `src/`): it updates the first matching
document by applying the `$set` fields then the `$unset` names, and when
nothing matches and the upsert flag is on it inserts a new document built
from the filter's equality fields with the update applied; it returns the
count of affected documents. -/
def updateDocs (docs : List Doc) (f : Filter) (sets : List (String × Value))
    (unsets : List String) (upsert : Bool) : List Doc × Nat :=
  match updateFirst docs f (fun d => (applySets d sets).dropFields unsets) with
  | some ds => (ds, 1)
  | none =>
    if upsert then
      (docs ++ [(applySets (eqDoc f) sets).dropFields unsets], 1)
    else (docs, 0)

/-! ## KLineData: time-series store (one partition's documents) -/

/-- Python truthiness of the optional `ts` argument: `if ts:` is false both
for `None` and for `0`. -/
def tsTruthy : Option Int → Bool
  | none => false
  | some t => t != 0

/-- The filter built by `KLineData.get_kline_at_ts`: `{"t": {"$lte": ts}}`
when `ts` is truthy, else the empty filter. -/
def klineSpec (ts : Option Int) : Filter :=
  if tsTruthy ts then [("t", Cond.range none (some (ts.getD 0)))] else []

/-- `KLineData.get_kline_at_ts`, acting on the documents of the symbol's
partition: `find_one` with the filter above and sort `[("t", -1)]`. -/
def get_kline_at_ts (docs : List Doc) (ts : Option Int) : Option Doc :=
  findOneSortDesc docs (klineSpec ts) "t"

/-- `KLineData.get_kline_between_ts`, acting on the documents of the
symbol's partition: `get_list` with filter
`{"t": {"$gte": start, "$lte": end}}`, projection dropping `create_time`
and `update_time`, and sort `[("t", 1)]`. -/
def get_kline_between_ts (docs : List Doc) (start fin : Int) : List Doc :=
  let spec : Filter := [("t", Cond.range (some start) (some fin))]
  let fields : List String := ["create_time", "update_time"]
  (sortAscBy "t" (docs.filter (fun d => docMatches d spec))).map
    (fun d => d.dropFields fields)

/-! ## KLineData: partition router (`_get_kline_cursor_by_symbol`) -/

/-- Error raised when the symbol string cannot be unpacked as
`x, y = symbol.split("/")` (the spec's `InvalidSymbolFormat`). -/
inductive DataErr where
  | invalidSymbolFormat : DataErr
deriving DecidableEq, Repr

/-- Python `str.split("/")` on the character list: `""` splits to `[""]`,
`"a/b/c"` to three parts. -/
def splitSlashAux : List Char → List (List Char)
  | [] => [[]]
  | c :: rest =>
    let r := splitSlashAux rest
    if c = '/' then [] :: r
    else
      match r with
      | [] => [[c]]
      | g :: gs => (c :: g) :: gs

/-- Python `symbol.split("/")`. -/
def pySplitSlash (s : String) : List String :=
  (splitSlashAux s.toList).map (fun cs => { data := cs })

/-- Python `str.lower()` (ASCII, per the Char-wise lowering). -/
def pyToLower (s : String) : String := { data := s.toList.map Char.toLower }

/-- The in-memory `self._k_to_c` mapping from symbol to partition handle;
the handle is identified by its collection name. -/
abbrev Cache := List (String × String)

/-- `self._k_to_c.get(symbol)`. -/
def lookupCache : Cache → String → Option String
  | [], _ => none
  | p :: rest, s => if p.1 == s then some p.2 else lookupCache rest s

/-- Python truthiness of the cache lookup result in `if not cursor:`:
false for a missing entry, true for a non-empty stored handle. -/
def cursorTruthy : Option String → Bool
  | none => false
  | some s => s != ""

/-- `KLineData._get_kline_cursor_by_symbol` with the cache state passed
explicitly. Returns the partition handle (its collection name
`kline_<base>_<quote>`), the updated cache, and whether the underlying
resolution was performed (the cache-miss branch ran). -/
def get_kline_cursor_by_symbol (cache : Cache) (symbol : String) :
    Except DataErr (String × Cache × Bool) :=
  let cur := lookupCache cache symbol
  if cursorTruthy cur then .ok (cur.getD "", cache, false)
  else
    match pySplitSlash symbol with
    | [x, y] =>
      let collection := "kline_" ++ pyToLower x ++ "_" ++ pyToLower y
      .ok (collection, (symbol, collection) :: cache, true)
    | _ => .error .invalidSymbolFormat

/-! ## AssetData / AssetSnapshotData -/

/-- `AssetData.update_asset`: update with
`spec = {platform, account, timestamp}`,
`update_fields = {"$set": asset}` plus `{"$unset": {k: 1 for k in delete}}`
when `delete` is truthy, and `upsert=True`. Returns the new store contents
and the affected-document count. -/
def assetSpec (platform account : String) (timestamp : Int) : Filter :=
  [("platform", Cond.eqv (Value.str platform)),
   ("account", Cond.eqv (Value.str account)),
   ("timestamp", Cond.eqv (Value.int timestamp))]

def update_asset (docs : List Doc) (platform account : String)
    (asset : List (String × Value)) (timestamp : Int) (delete : List String) :
    List Doc × Nat :=
  let unsets := if delete.isEmpty then [] else delete
  updateDocs docs (assetSpec platform account timestamp) asset unsets true

/-- `AssetSnapshotData.get_asset_snapshot`. Modelled from the spec for the
part outside `src/`: `tools.get_cur_timestamp()` is the current timestamp,
passed here as `now`. The source defaults `end` to `now` when falsy and
`start` to `end - 60 * 60 * 24` when falsy, then runs `get_list` with
filter `{platform, account, timestamp: {"$gte": start, "$lte": end}}` and a
projection dropping `platform`, `account` and `update_time`. -/
def get_asset_snapshot (docs : List Doc) (platform account : String)
    (start fin : Option Int) (now : Int) : List Doc :=
  let e : Int := if tsTruthy fin then fin.getD 0 else now
  let s : Int := if tsTruthy start then start.getD 0 else e - 60 * 60 * 24
  let spec : Filter :=
    [("platform", Cond.eqv (Value.str platform)),
     ("account", Cond.eqv (Value.str account)),
     ("timestamp", Cond.range (some s) (some e))]
  (docs.filter (fun d => docMatches d spec)).map
    (fun d => d.dropFields ["platform", "account", "update_time"])

/-! ## OrderData -/

/-- An in-memory `Order` object, with the fields `create_new_order`
persists. -/
structure Order where
  platform : String
  account : String
  strategy : String
  symbol : String
  order_no : String
  action : String
  order_type : String
  status : String
  price : Int
  avg_price : Int
  quantity : Int
  remain : Int
  trade_type : Int
  ctime : Int
  utime : Int
deriving DecidableEq, Repr

/-- The document inserted by `OrderData.create_new_order`: note `"s"` holds
the strategy and `"st"` the status, per the class's data struct. -/
def orderDoc (o : Order) : Doc :=
  [("p", Value.str o.platform),
   ("a", Value.str o.account),
   ("s", Value.str o.strategy),
   ("S", Value.str o.symbol),
   ("n", Value.str o.order_no),
   ("A", Value.str o.action),
   ("t", Value.str o.order_type),
   ("st", Value.str o.status),
   ("pr", Value.int o.price),
   ("ap", Value.int o.avg_price),
   ("q", Value.int o.quantity),
   ("r", Value.int o.remain),
   ("T", Value.int o.trade_type),
   ("ct", Value.int o.ctime),
   ("ut", Value.int o.utime)]

/-- `OrderData.update_order_infos`: update with
`spec = {"p": order.platform, "n": order.order_no}` and
`update_fields = {"$set": {"s": order.status, "r": order.remain}}`
(no upsert). The source really writes the status into the `"s"` field. -/
def update_order_infos (docs : List Doc) (o : Order) : List Doc × Nat :=
  let spec : Filter :=
    [("p", Cond.eqv (Value.str o.platform)),
     ("n", Cond.eqv (Value.str o.order_no))]
  let update_fields : List (String × Value) :=
    [("s", Value.str o.status), ("r", Value.int o.remain)]
  updateDocs docs spec update_fields [] false

/-! ## Auxiliary definitions for the verification -/

/-- The value assigned to a key by a `$set` list: the last occurrence wins. -/
def lastVal : List (String × Value) → String → Option Value
  | [], _ => none
  | (k0, v0) :: rest, k =>
    match lastVal rest k with
    | some v => some v
    | none => if k0 == k then some v0 else none

/-- Observable equality of two stores: the same number of documents and, at
every position, the same value for every field name. -/
def docsObsEq (a b : List Doc) : Prop :=
  a.length = b.length ∧
    ∀ (i : Nat) (k : String),
      (a[i]?.map (fun d => d.getField k)) = (b[i]?.map (fun d => d.getField k))

/-- A stored order: strategy `"sma"`, status `"new"`, price `100`,
quantity `5`, remaining `5`. -/
def orderBefore : Order :=
  { platform := "binance", account := "a@x.com", strategy := "sma",
    symbol := "ETH/BTC", order_no := "1001", action := "BUY",
    order_type := "LIMIT", status := "new", price := 100, avg_price := 0,
    quantity := 5, remain := 5, trade_type := 0, ctime := 1, utime := 1 }

/-- The same order after fills: status `"filled"`, remaining `0`, and an
in-memory price that has drifted to `999`. -/
def orderAfter : Order :=
  { orderBefore with status := "filled", remain := 0, price := 999, utime := 2 }

/-- An asset snapshot taken one hour (3 600 000 ms) before
`now = 1700000000000`. -/
def snapshotHourOld : Doc :=
  [("platform", Value.str "binance"), ("account", Value.str "a@x.com"),
   ("timestamp", Value.int (1700000000000 - 3600000))]

/-- An asset snapshot taken exactly 86 400 ms before `now`. -/
def snapshotAtCodeCutoff : Doc :=
  [("platform", Value.str "binance"), ("account", Value.str "a@x.com"),
   ("timestamp", Value.int (1700000000000 - 86400))]

/-- A stored asset document holding an `ETH` balance at timestamp `1000`. -/
def assetPrior : Doc :=
  [("platform", Value.str "binance"), ("account", Value.str "a@x.com"),
   ("timestamp", Value.int 1000), ("ETH", Value.bal "2" "0" "2")]

/-- A stored asset document for the same account at timestamp `999`. -/
def assetPriorOtherTs : Doc :=
  [("platform", Value.str "binance"), ("account", Value.str "a@x.com"),
   ("timestamp", Value.int 999), ("ETH", Value.bal "2" "0" "2")]

/-! ## Field-level lemmas -/

theorem getField_setField (d : Doc) (k0 k : String) (v : Value) :
    (d.setField k0 v).getField k = if k0 == k then some v else d.getField k := by
  induction d with
  | nil =>
    by_cases h : k0 = k <;> simp [Doc.setField, Doc.getField, h]
  | cons p rest ih =>
    obtain ⟨k', v'⟩ := p
    by_cases h1 : k' = k0
    · subst h1
      by_cases h2 : k' = k <;> simp [Doc.setField, Doc.getField, h2]
    · by_cases h2 : k' = k
      · subst h2
        have h3 : ¬ k0 = k' := fun hh => h1 hh.symm
        simp [Doc.setField, Doc.getField, h1, h3]
      · simp [Doc.setField, Doc.getField, h1, h2, ih]

theorem getField_dropFields (d : Doc) (ex : List String) (k : String) :
    (d.dropFields ex).getField k =
      if ex.contains k then none else d.getField k := by
  induction d with
  | nil => cases h : ex.contains k <;> simp [Doc.dropFields, Doc.getField, h]
  | cons p rest ih =>
    obtain ⟨k', v'⟩ := p
    by_cases hk : k' ∈ ex
    · have hfil : Doc.dropFields ((k', v') :: rest) ex = Doc.dropFields rest ex := by
        simp [Doc.dropFields, List.filter_cons, hk]
      by_cases h2 : k' = k
      · subst h2
        have hc : ex.contains k' = true := by simpa using hk
        rw [hfil, ih, hc]
        simp
      · have hgf : Doc.getField ((k', v') :: rest) k = Doc.getField rest k := by
          simp [Doc.getField, h2]
        rw [hfil, ih, hgf]
    · have hfil : Doc.dropFields ((k', v') :: rest) ex
          = (k', v') :: Doc.dropFields rest ex := by
        simp [Doc.dropFields, List.filter_cons, hk]
      by_cases h2 : k' = k
      · subst h2
        have hc : ex.contains k' = false := by simpa using hk
        rw [hfil, hc]
        simp [Doc.getField]
      · have hskip : Doc.getField ((k', v') :: Doc.dropFields rest ex) k
            = Doc.getField (Doc.dropFields rest ex) k := by
          simp [Doc.getField, h2]
        have hgf : Doc.getField ((k', v') :: rest) k = Doc.getField rest k := by
          simp [Doc.getField, h2]
        rw [hfil, hskip, ih, hgf]

theorem getField_applySets (d : Doc) (s : List (String × Value)) (k : String) :
    (applySets d s).getField k =
      match lastVal s k with
      | some v => some v
      | none => d.getField k := by
  induction s generalizing d with
  | nil => simp [applySets, lastVal]
  | cons p rest ih =>
    obtain ⟨k0, v0⟩ := p
    simp only [applySets]
    rw [ih]
    cases h : lastVal rest k with
    | some v => simp [lastVal, h]
    | none =>
      by_cases h2 : k0 = k <;> simp [lastVal, h, getField_setField, h2]

theorem lastVal_eq_none (s : List (String × Value)) (k : String)
    (h : ∀ p ∈ s, p.1 ≠ k) : lastVal s k = none := by
  induction s with
  | nil => rfl
  | cons p rest ih =>
    obtain ⟨k0, v0⟩ := p
    have h0 : k0 ≠ k := h (k0, v0) (by simp)
    have hr : lastVal rest k = none := ih (fun q hq => h q (by simp [hq]))
    simp [lastVal, hr, h0]

theorem contains_eq_false_of_forall_ne (l : List String) (k : String)
    (h : ∀ x ∈ l, x ≠ k) : l.contains k = false := by
  induction l with
  | nil => rfl
  | cons a rest ih =>
    have h0 : a ≠ k := h a (by simp)
    have hr := ih (fun x hx => h x (by simp [hx]))
    simp [List.contains, List.elem_cons] at *
    exact ⟨fun hh => h0 hh.symm, hr⟩

/-! ## Sort-key order lemmas -/

theorem optLt_irrefl (a : Option Int) : optLt a a = false := by
  cases a <;> simp [optLt]

theorem optLt_trans {a b c : Option Int} (h1 : optLt a b = true)
    (h2 : optLt b c = true) : optLt a c = true := by
  cases a <;> cases b <;> cases c <;> simp [optLt] at * <;> omega

theorem optLt_of_lt_of_nlt {a b c : Option Int} (h1 : optLt a b = true)
    (h2 : optLt c b = false) : optLt a c = true := by
  cases a <;> cases b <;> cases c <;> simp [optLt] at * <;> omega

theorem optLe_of_not_optLe {a b : Option Int} (h : optLe a b = false) :
    optLe b a = true := by
  simp [optLe] at *
  cases a <;> cases b <;> simp [optLt] at * <;> omega

theorem optLe_trans {a b c : Option Int} (h1 : optLe a b = true)
    (h2 : optLe b c = true) : optLe a c = true := by
  simp [optLe] at *
  cases a <;> cases b <;> cases c <;> simp [optLt] at * <;> omega

/-! ## `findOne` with descending sort: membership, maximality, absence -/

theorem pickFold_isSome (k : String) :
    ∀ (l : List Doc) (b : Doc), (l.foldl (pickStep k) (some b)).isSome = true
  | [], _ => rfl
  | d :: rest, b => by
    simp only [List.foldl_cons]
    cases h : optLt (keyVal b k) (keyVal d k) with
    | false =>
      have hs : pickStep k (some b) d = some b := by simp [pickStep, h]
      rw [hs]
      exact pickFold_isSome k rest b
    | true =>
      have hs : pickStep k (some b) d = some d := by simp [pickStep, h]
      rw [hs]
      exact pickFold_isSome k rest d

theorem findOneSortDesc_eq_none_iff (docs : List Doc) (f : Filter) (k : String) :
    findOneSortDesc docs f k = none ↔
      docs.filter (fun d => docMatches d f) = [] := by
  unfold findOneSortDesc
  cases hl : docs.filter (fun d => docMatches d f) with
  | nil => simp
  | cons d rest =>
    simp only [List.foldl_cons]
    have h1 : pickStep k none d = some d := rfl
    rw [h1]
    constructor
    · intro h
      have h2 := pickFold_isSome k rest d
      rw [h] at h2
      simp at h2
    · intro h
      simp at h

theorem pickFold_mem (k : String) :
    ∀ (l : List Doc) (acc : Option Doc) (r : Doc),
      l.foldl (pickStep k) acc = some r → acc = some r ∨ r ∈ l
  | [], _, _, h => Or.inl h
  | d :: rest, acc, r, h => by
    simp only [List.foldl_cons] at h
    rcases pickFold_mem k rest (pickStep k acc d) r h with h1 | h1
    · cases acc with
      | none =>
        have hd : d = r := by simpa [pickStep] using h1
        exact Or.inr (by simp [hd])
      | some b =>
        cases h2 : optLt (keyVal b k) (keyVal d k) with
        | true =>
          have hd : d = r := by simpa [pickStep, h2] using h1
          exact Or.inr (by simp [hd])
        | false =>
          have hb : b = r := by simpa [pickStep, h2] using h1
          exact Or.inl (by simp [hb])
    · exact Or.inr (List.mem_cons_of_mem _ h1)

theorem pickFold_max (k : String) :
    ∀ (l : List Doc) (acc : Option Doc) (r : Doc),
      l.foldl (pickStep k) acc = some r →
      (∀ b, acc = some b → optLt (keyVal r k) (keyVal b k) = false) ∧
      (∀ e ∈ l, optLt (keyVal r k) (keyVal e k) = false)
  | [], acc, r, h => by
    simp only [List.foldl_nil] at h
    refine ⟨fun b hb => ?_, fun e he => absurd he (List.not_mem_nil e)⟩
    rw [hb] at h
    obtain rfl : b = r := by injection h
    exact optLt_irrefl _
  | d :: rest, acc, r, h => by
    simp only [List.foldl_cons] at h
    have IH := pickFold_max k rest (pickStep k acc d) r h
    have hstep_d : ∀ b, acc = some b →
        optLt (keyVal b k) (keyVal d k) = true →
        optLt (keyVal r k) (keyVal d k) = false := by
      intro b hb h2
      exact IH.1 d (by simp [pickStep, hb, h2])
    refine ⟨fun b hb => ?_, fun e he => ?_⟩
    · cases h2 : optLt (keyVal b k) (keyVal d k) with
      | true =>
        have hrd := hstep_d b hb h2
        cases hcon : optLt (keyVal r k) (keyVal b k) with
        | false => rfl
        | true =>
          have := optLt_trans hcon h2
          rw [this] at hrd
          cases hrd
      | false =>
        exact IH.1 b (by simp [pickStep, hb, h2])
    · rcases List.mem_cons.mp he with rfl | hmem
      · cases acc with
        | none => exact IH.1 e (by simp [pickStep])
        | some b =>
          cases h2 : optLt (keyVal b k) (keyVal e k) with
          | true => exact hstep_d b rfl h2
          | false =>
            have hrb := IH.1 b (by simp [pickStep, h2])
            cases hcon : optLt (keyVal r k) (keyVal e k) with
            | false => rfl
            | true =>
              have := optLt_of_lt_of_nlt hcon h2
              rw [this] at hrb
              cases hrb
      · exact IH.2 e hmem

theorem findOneSortDesc_mem (docs : List Doc) (f : Filter) (k : String)
    (d : Doc) (h : findOneSortDesc docs f k = some d) :
    d ∈ docs ∧ docMatches d f = true := by
  unfold findOneSortDesc at h
  rcases pickFold_mem k _ none d h with h1 | h1
  · cases h1
  · have h2 := List.mem_filter.mp h1
    exact ⟨h2.1, by simpa using h2.2⟩

theorem findOneSortDesc_max (docs : List Doc) (f : Filter) (k : String)
    (d : Doc) (h : findOneSortDesc docs f k = some d) :
    ∀ e ∈ docs, docMatches e f = true →
      optLt (keyVal d k) (keyVal e k) = false := by
  unfold findOneSortDesc at h
  intro e he hm
  exact (pickFold_max k _ none d h).2 e (List.mem_filter.mpr ⟨he, by simpa using hm⟩)

/-! ## Insertion-sort lemmas -/

theorem insertAsc_perm (k : String) (d : Doc) (l : List Doc) :
    (insertAsc k d l).Perm (d :: l) := by
  induction l with
  | nil => exact List.Perm.refl _
  | cons e rest ih =>
    cases h : optLe (keyVal e k) (keyVal d k) with
    | true =>
      simp only [insertAsc, h, if_true]
      exact (ih.cons e).trans (List.Perm.swap d e rest)
    | false =>
      simp only [insertAsc, h]
      simp

theorem sortAscBy_perm (k : String) : ∀ l : List Doc, (sortAscBy k l).Perm l
  | [] => List.Perm.refl _
  | d :: rest =>
    (insertAsc_perm k d (sortAscBy k rest)).trans
      ((sortAscBy_perm k rest).cons d)

theorem pairwise_insertAsc (k : String) (d : Doc) (l : List Doc)
    (hl : l.Pairwise (fun a b => optLe (keyVal a k) (keyVal b k) = true)) :
    (insertAsc k d l).Pairwise
      (fun a b => optLe (keyVal a k) (keyVal b k) = true) := by
  induction l with
  | nil => simp [insertAsc]
  | cons e rest ih =>
    rcases List.pairwise_cons.mp hl with ⟨he, hrest⟩
    cases h : optLe (keyVal e k) (keyVal d k) with
    | true =>
      simp only [insertAsc, h, if_true]
      refine List.pairwise_cons.mpr ⟨?_, ih hrest⟩
      intro b hb
      have hmem := (insertAsc_perm k d rest).mem_iff.mp hb
      rcases List.mem_cons.mp hmem with rfl | hb2
      · exact h
      · exact he b hb2
    | false =>
      simp only [insertAsc, h]
      simp only [Bool.false_eq_true, if_false]
      refine List.pairwise_cons.mpr ⟨?_, hl⟩
      intro b hb
      rcases List.mem_cons.mp hb with rfl | hb2
      · exact optLe_of_not_optLe h
      · exact optLe_trans (optLe_of_not_optLe h) (he b hb2)

theorem sortAscBy_pairwise (k : String) :
    ∀ l : List Doc, (sortAscBy k l).Pairwise
      (fun a b => optLe (keyVal a k) (keyVal b k) = true)
  | [] => List.Pairwise.nil
  | d :: rest => pairwise_insertAsc k d _ (sortAscBy_pairwise k rest)

/-! ## Filter-condition inversion lemmas -/

theorem condHolds_range_iff (v : Option Value) (lo hi : Int) :
    condHolds v (Cond.range (some lo) (some hi)) = true ↔
      ∃ n : Int, v = some (Value.int n) ∧ lo ≤ n ∧ n ≤ hi := by
  cases v with
  | none => simp [condHolds]
  | some w =>
    cases w with
    | int n => simp [condHolds, Option.all]
    | str s => simp [condHolds]
    | bal a b c => simp [condHolds]

theorem condHolds_le_iff (v : Option Value) (hi : Int) :
    condHolds v (Cond.range none (some hi)) = true ↔
      ∃ n : Int, v = some (Value.int n) ∧ n ≤ hi := by
  cases v with
  | none => simp [condHolds]
  | some w =>
    cases w with
    | int n => simp [condHolds, Option.all]
    | str s => simp [condHolds]
    | bal a b c => simp [condHolds]

theorem docMatches_singleton (d : Doc) (k : String) (c : Cond) :
    docMatches d [(k, c)] = condHolds (d.getField k) c := by
  simp [docMatches]

theorem keyVal_eq_of_getField (d : Doc) (k : String) (n : Int)
    (h : d.getField k = some (Value.int n)) : keyVal d k = some n := by
  simp [keyVal, h]

theorem keyVal_dropFields (d : Doc) (ex : List String) (k : String)
    (h : ex.contains k = false) :
    keyVal (d.dropFields ex) k = keyVal d k := by
  unfold keyVal
  rw [getField_dropFields, h]
  simp

/-! ## `update` primitive lemmas -/

theorem updateFirst_eq_none_iff (docs : List Doc) (f : Filter) (tr : Doc → Doc) :
    updateFirst docs f tr = none ↔ ∀ d ∈ docs, docMatches d f = false := by
  induction docs with
  | nil => simp [updateFirst]
  | cons d rest ih =>
    cases h : docMatches d f with
    | true => simp [updateFirst, h, List.forall_mem_cons]
    | false => simp [updateFirst, h, ih, List.forall_mem_cons]

theorem docsObsEq_cons (d : Doc) {a b : List Doc} (h : docsObsEq a b) :
    docsObsEq (d :: a) (d :: b) := by
  obtain ⟨hl, hp⟩ := h
  refine ⟨by simp [hl], ?_⟩
  intro i k
  cases i with
  | zero => simp
  | succ j => simpa using hp j k

theorem docsObsEq_cons_head {d e : Doc}
    (hd : ∀ k, d.getField k = e.getField k) (a : List Doc) :
    docsObsEq (d :: a) (e :: a) := by
  refine ⟨rfl, ?_⟩
  intro i k
  cases i with
  | zero => simpa using hd k
  | succ j => simp

theorem docsObsEq_append_left (l : List Doc) {a b : List Doc}
    (h : docsObsEq a b) : docsObsEq (l ++ a) (l ++ b) := by
  induction l with
  | nil => simpa using h
  | cons d rest ih => simpa [List.cons_append] using docsObsEq_cons d ih

theorem updateFirst_idem (f : Filter) (tr : Doc → Doc)
    (hm : ∀ d, docMatches d f = true → docMatches (tr d) f = true)
    (hid : ∀ d k, (tr (tr d)).getField k = (tr d).getField k) :
    ∀ (docs ds : List Doc), updateFirst docs f tr = some ds →
      ∃ ds2, updateFirst ds f tr = some ds2 ∧ docsObsEq ds2 ds
  | [], ds, h => by cases h
  | d :: rest, ds, h => by
    cases hd : docMatches d f with
    | true =>
      rw [updateFirst, hd] at h
      simp only [if_true] at h
      obtain rfl : tr d :: rest = ds := by injection h
      refine ⟨tr (tr d) :: rest, ?_, ?_⟩
      · simp [updateFirst, hm d hd]
      · exact docsObsEq_cons_head (fun k => hid d k) rest
    | false =>
      rw [updateFirst, hd] at h
      simp only [Bool.false_eq_true, if_false] at h
      cases hrest : updateFirst rest f tr with
      | none =>
        rw [hrest] at h
        cases h
      | some ds0 =>
        rw [hrest] at h
        simp only [Option.map_some'] at h
        obtain rfl : d :: ds0 = ds := by injection h
        obtain ⟨ds2a, h1, h2⟩ := updateFirst_idem f tr hm hid rest ds0 hrest
        refine ⟨d :: ds2a, ?_, docsObsEq_cons d h2⟩
        simp [updateFirst, hd, h1]

theorem updateFirst_append_of_none (f : Filter) (tr : Doc → Doc) :
    ∀ (docs l : List Doc), (∀ d ∈ docs, docMatches d f = false) →
      updateFirst (docs ++ l) f tr
        = (updateFirst l f tr).map (fun l2 => docs ++ l2)
  | [], l, _ => by cases hu : updateFirst l f tr <;> simp [hu]
  | d :: docs, l, h => by
    have hd : docMatches d f = false := h d (by simp)
    have hrec := updateFirst_append_of_none f tr docs l
      (fun e he => h e (by simp [he]))
    rw [List.cons_append, updateFirst, hd]
    simp only [Bool.false_eq_true, if_false, hrec]
    cases updateFirst l f tr <;> simp

/-! ## `update_asset` transformation lemmas -/

theorem assetTr_idem (sets : List (String × Value)) (unsets : List String)
    (d : Doc) (k : String) :
    ((applySets ((applySets d sets).dropFields unsets) sets).dropFields
        unsets).getField k
      = ((applySets d sets).dropFields unsets).getField k := by
  cases hc : unsets.contains k with
  | true =>
    rw [getField_dropFields, getField_dropFields, hc]
    simp
  | false =>
    rw [getField_dropFields, getField_dropFields, hc]
    simp only [Bool.false_eq_true, if_false]
    rw [getField_applySets, getField_applySets]
    cases hv : lastVal sets k with
    | some v => simp
    | none =>
      simp only []
      rw [getField_dropFields, hc, getField_applySets, hv]
      simp

theorem docMatches_assetSpec_iff (d : Doc) (platform account : String)
    (timestamp : Int) :
    docMatches d (assetSpec platform account timestamp) = true ↔
      d.getField "platform" = some (Value.str platform) ∧
      d.getField "account" = some (Value.str account) ∧
      d.getField "timestamp" = some (Value.int timestamp) := by
  simp [assetSpec, docMatches, condHolds]

theorem assetTr_matches (platform account : String) (timestamp : Int)
    (sets : List (String × Value)) (unsets : List String)
    (hs : ∀ p ∈ sets, p.1 ≠ "platform" ∧ p.1 ≠ "account" ∧ p.1 ≠ "timestamp")
    (hu : ∀ x ∈ unsets, x ≠ "platform" ∧ x ≠ "account" ∧ x ≠ "timestamp")
    (d : Doc) (hd : docMatches d (assetSpec platform account timestamp) = true) :
    docMatches ((applySets d sets).dropFields unsets)
      (assetSpec platform account timestamp) = true := by
  rw [docMatches_assetSpec_iff] at hd ⊢
  have key : ∀ k : String, k = "platform" ∨ k = "account" ∨ k = "timestamp" →
      ((applySets d sets).dropFields unsets).getField k = d.getField k := by
    intro k hk
    have hc : unsets.contains k = false :=
      contains_eq_false_of_forall_ne unsets k (fun x hx => by
        rcases hk with rfl | rfl | rfl
        · exact (hu x hx).1
        · exact (hu x hx).2.1
        · exact (hu x hx).2.2)
    have hl : lastVal sets k = none :=
      lastVal_eq_none sets k (fun p hp => by
        rcases hk with rfl | rfl | rfl
        · exact (hs p hp).1
        · exact (hs p hp).2.1
        · exact (hs p hp).2.2)
    rw [getField_dropFields, hc, getField_applySets, hl]
    simp
  refine ⟨?_, ?_, ?_⟩
  · rw [key _ (Or.inl rfl)]
    exact hd.1
  · rw [key _ (Or.inr (Or.inl rfl))]
    exact hd.2.1
  · rw [key _ (Or.inr (Or.inr rfl))]
    exact hd.2.2

theorem assetSpec_eqDoc_matches (platform account : String) (timestamp : Int) :
    docMatches (eqDoc (assetSpec platform account timestamp))
      (assetSpec platform account timestamp) = true := by
  rw [docMatches_assetSpec_iff]
  refine ⟨?_, ?_, ?_⟩ <;> simp [eqDoc, assetSpec, Doc.getField]

/-! ## Router helper lemmas -/

theorem str_append_ne_empty (a b : String) (ha : a ≠ "") : a ++ b ≠ "" := by
  intro hcon
  apply ha
  have h1 : a.data ++ b.data = [] := by
    have h2 : (a ++ b).data = ("" : String).data := by rw [hcon]
    rw [String.data_append] at h2
    simpa using h2
  have h3 : a.data = [] := (List.append_eq_nil.mp h1).1
  cases a with
  | mk la =>
    have h4 : la = [] := h3
    rw [h4]

theorem kline_name_ne_empty (x y : String) :
    ("kline_" ++ x ++ "_" ++ y) ≠ "" :=
  str_append_ne_empty _ y
    (str_append_ne_empty _ "_" (str_append_ne_empty "kline_" x (by decide)))

theorem splitSlashAux_no_sep (cs : List Char) (h : '/' ∉ cs) :
    ∃ g, splitSlashAux cs = [g] := by
  induction cs with
  | nil => exact ⟨[], rfl⟩
  | cons c rest ih =>
    have hc : ¬ c = '/' := by
      intro hcon
      exact h (by simp [hcon])
    obtain ⟨g, hg⟩ := ih (fun hm => h (List.mem_cons_of_mem c hm))
    refine ⟨c :: g, ?_⟩
    simp [splitSlashAux, hc, hg]

/-! ## Claim theorems: partition router -/

/-- C5: after any successful resolution of a symbol (yielding handle `h`,
cache `c2`, and resolution flag `b`), resolving the same symbol again on
the updated cache yields the same handle, leaves the cache unchanged, and
performs no underlying resolution (the flag is `false`): the handle is
stored in the in-memory symbol-to-handle mapping and the second call is a
cache hit. -/
theorem c5_cursor_resolved_once (cache : Cache) (symbol h : String)
    (c2 : Cache) (b : Bool)
    (hres : get_kline_cursor_by_symbol cache symbol = .ok (h, c2, b)) :
    get_kline_cursor_by_symbol c2 symbol = .ok (h, c2, false) ∧
    lookupCache c2 symbol = some h := by
  simp only [get_kline_cursor_by_symbol] at hres
  cases heq : cursorTruthy (lookupCache cache symbol) with
  | true =>
    rw [if_pos heq] at hres
    cases hcur : lookupCache cache symbol with
    | none =>
      rw [hcur] at heq
      cases heq
    | some s =>
      rw [hcur, Option.getD_some] at hres
      simp only [Except.ok.injEq, Prod.mk.injEq] at hres
      obtain ⟨rfl, rfl, rfl⟩ := hres
      constructor
      · simp only [get_kline_cursor_by_symbol]
        rw [if_pos heq, hcur]
        rfl
      · exact hcur
  | false =>
    have hne : ¬ cursorTruthy (lookupCache cache symbol) = true := by
      simp [heq]
    rw [if_neg hne] at hres
    cases hsplit : pySplitSlash symbol with
    | nil =>
      rw [hsplit] at hres
      simp at hres
    | cons x t =>
      cases t with
      | nil =>
        rw [hsplit] at hres
        simp at hres
      | cons y t2 =>
        cases t2 with
        | cons z t3 =>
          rw [hsplit] at hres
          simp at hres
        | nil =>
          rw [hsplit] at hres
          simp only [Except.ok.injEq, Prod.mk.injEq] at hres
          obtain ⟨rfl, rfl, rfl⟩ := hres
          have hlook : lookupCache
              ((symbol, "kline_" ++ pyToLower x ++ "_" ++ pyToLower y)
                :: cache) symbol
              = some ("kline_" ++ pyToLower x ++ "_" ++ pyToLower y) := by
            simp [lookupCache]
          have htru : cursorTruthy
              (some ("kline_" ++ pyToLower x ++ "_" ++ pyToLower y))
              = true := by
            simp only [cursorTruthy, bne_iff_ne, ne_eq, decide_not]
            simp [kline_name_ne_empty (pyToLower x) (pyToLower y)]
          constructor
          · simp only [get_kline_cursor_by_symbol]
            rw [hlook, if_pos htru, Option.getD_some]
          · exact hlook

/-- C5 witness: resolving `"ETH/BTC"` on an empty cache and then again on
the resulting cache. -/
theorem c5_cursor_resolved_once_witness :
    get_kline_cursor_by_symbol [] "ETH/BTC"
      = .ok ("kline_eth_btc", [("ETH/BTC", "kline_eth_btc")], true) ∧
    (get_kline_cursor_by_symbol [("ETH/BTC", "kline_eth_btc")] "ETH/BTC"
        = .ok ("kline_eth_btc", [("ETH/BTC", "kline_eth_btc")], false) ∧
     lookupCache [("ETH/BTC", "kline_eth_btc")] "ETH/BTC"
        = some "kline_eth_btc") :=
  ⟨rfl, c5_cursor_resolved_once [] "ETH/BTC" "kline_eth_btc"
    [("ETH/BTC", "kline_eth_btc")] true rfl⟩

/-- C6: on a cache miss, a symbol that splits on `"/"` into base `x` and
quote `y` resolves to the partition named `"kline_" ++ lower x ++ "_" ++
lower y`, which is stored in the cache. -/
theorem c6_partition_name (cache : Cache) (symbol x y : String)
    (hc : cursorTruthy (lookupCache cache symbol) = false)
    (hs : pySplitSlash symbol = [x, y]) :
    get_kline_cursor_by_symbol cache symbol
      = .ok ("kline_" ++ pyToLower x ++ "_" ++ pyToLower y,
             (symbol, "kline_" ++ pyToLower x ++ "_" ++ pyToLower y) :: cache,
             true) := by
  simp only [get_kline_cursor_by_symbol]
  have hne : ¬ cursorTruthy (lookupCache cache symbol) = true := by
    simp [hc]
  rw [if_neg hne, hs]

/-- C6 witness: `"ETH/BTC"` derives `kline_eth_btc` and `"BTC/USD"`
derives `kline_btc_usd`. -/
theorem c6_partition_name_witness :
    cursorTruthy (lookupCache [] "ETH/BTC") = false ∧
    pySplitSlash "ETH/BTC" = ["ETH", "BTC"] ∧
    get_kline_cursor_by_symbol [] "ETH/BTC"
      = .ok ("kline_eth_btc", [("ETH/BTC", "kline_eth_btc")], true) ∧
    pySplitSlash "BTC/USD" = ["BTC", "USD"] ∧
    get_kline_cursor_by_symbol [] "BTC/USD"
      = .ok ("kline_btc_usd", [("BTC/USD", "kline_btc_usd")], true) :=
  ⟨rfl, by decide,
   (c6_partition_name [] "ETH/BTC" "ETH" "BTC" rfl (by decide)).trans rfl,
   by decide,
   (c6_partition_name [] "BTC/USD" "BTC" "USD" rfl (by decide)).trans rfl⟩

/-- C7: on a cache miss, an empty symbol or a symbol without the `"/"`
separator makes partition resolution fail with the invalid-symbol-format
error for that call (the `x, y` unpacking of `symbol.split("/")` fails). -/
theorem c7_invalid_symbol (cache : Cache) (symbol : String)
    (hc : cursorTruthy (lookupCache cache symbol) = false)
    (hbad : symbol = "" ∨ '/' ∉ symbol.toList) :
    get_kline_cursor_by_symbol cache symbol
      = .error DataErr.invalidSymbolFormat := by
  have hn : ∃ g, splitSlashAux symbol.toList = [g] := by
    rcases hbad with rfl | hns
    · exact ⟨[], rfl⟩
    · exact splitSlashAux_no_sep _ hns
  obtain ⟨g, hg⟩ := hn
  have hg2 : splitSlashAux symbol.data = [g] := hg
  have hps : pySplitSlash symbol = [{ data := g }] := by
    simp [pySplitSlash, hg2]
  simp only [get_kline_cursor_by_symbol]
  have hne : ¬ cursorTruthy (lookupCache cache symbol) = true := by
    simp [hc]
  rw [if_neg hne, hps]

/-- C7 witness: `"BTCUSD"` (no separator) and `""` (empty) both fail. -/
theorem c7_invalid_symbol_witness :
    (cursorTruthy (lookupCache [] "BTCUSD") = false ∧
     '/' ∉ "BTCUSD".toList ∧
     get_kline_cursor_by_symbol [] "BTCUSD"
       = .error DataErr.invalidSymbolFormat) ∧
    get_kline_cursor_by_symbol [] "" = .error DataErr.invalidSymbolFormat :=
  ⟨⟨rfl, by decide, c7_invalid_symbol [] "BTCUSD" rfl (Or.inr (by decide))⟩,
   c7_invalid_symbol [] "" rfl (Or.inl rfl)⟩

/-! ## Claim theorems: kline point-in-time query -/

/-- C3 counterexample: with the supplied timestamp `ts = 0`, the
`$lte` filter is dropped (`if ts:` is false), so a record whose timestamp
`5` exceeds the supplied bound `0` is returned — the claim's "never
returns a record whose timestamp exceeds ts" fails for `ts = 0`. -/
theorem c3_counterexample_ts_zero :
    get_kline_at_ts [[("t", Value.int 5)]] (some 0)
      = some [("t", Value.int 5)] ∧ ¬ ((5 : Int) ≤ 0) :=
  ⟨by decide, by decide⟩

/-- C3 (amended): for every supplied nonzero timestamp `ts`,
`get_kline_at_ts` never returns a record whose timestamp exceeds `ts`; a
returned record's timestamp is the maximum among stored records with
timestamp ≤ `ts`; when no record qualifies the result is `none`, not an
error; and when the timestamp is omitted the record with maximal timestamp
overall is returned. -/
theorem c3_get_kline_at_ts_amended (docs : List Doc) (t : Int) (ht : t ≠ 0) :
    (∀ d, get_kline_at_ts docs (some t) = some d →
      d ∈ docs ∧ ∃ n : Int, d.getField "t" = some (Value.int n) ∧ n ≤ t ∧
        ∀ e ∈ docs, ∀ m : Int, e.getField "t" = some (Value.int m) →
          m ≤ t → m ≤ n) ∧
    (get_kline_at_ts docs (some t) = none ↔
      ∀ d ∈ docs, condHolds (d.getField "t")
        (Cond.range none (some t)) = false) ∧
    (∀ d, get_kline_at_ts docs none = some d →
      d ∈ docs ∧ ∀ e ∈ docs, optLt (keyVal d "t") (keyVal e "t") = false) := by
  have hspec : klineSpec (some t) = [("t", Cond.range none (some t))] := by
    simp [klineSpec, tsTruthy, ht]
  refine ⟨?_, ?_, ?_⟩
  · intro d hd
    rw [get_kline_at_ts, hspec] at hd
    obtain ⟨hdocs, hmatch⟩ := findOneSortDesc_mem docs _ "t" d hd
    have hmax := findOneSortDesc_max docs _ "t" d hd
    rw [docMatches_singleton] at hmatch
    obtain ⟨n, hgf, hnt⟩ := (condHolds_le_iff _ t).mp hmatch
    refine ⟨hdocs, n, hgf, hnt, ?_⟩
    intro e he m hem hmt
    have hme : docMatches e [("t", Cond.range none (some t))] = true := by
      rw [docMatches_singleton]
      exact (condHolds_le_iff _ t).mpr ⟨m, hem, hmt⟩
    have hlt := hmax e he hme
    rw [keyVal_eq_of_getField d "t" n hgf,
      keyVal_eq_of_getField e "t" m hem] at hlt
    simp [optLt] at hlt
    omega
  · rw [get_kline_at_ts, hspec, findOneSortDesc_eq_none_iff]
    simp [docMatches_singleton, List.filter_eq_nil]
  · intro d hd
    have hspec0 : klineSpec none = [] := rfl
    rw [get_kline_at_ts, hspec0] at hd
    obtain ⟨hdocs, _⟩ := findOneSortDesc_mem docs [] "t" d hd
    have hmax := findOneSortDesc_max docs [] "t" d hd
    refine ⟨hdocs, fun e he => hmax e he ?_⟩
    simp [docMatches]

/-- C3 witness: with records at timestamps 5 and 20 and the supplied bound
10, the record at 5 is returned and is maximal among qualifying records. -/
theorem c3_get_kline_at_ts_amended_witness :
    (10 : Int) ≠ 0 ∧
    ([("t", Value.int 5)] : Doc)
      ∈ [[("t", Value.int 5)], [("t", Value.int 20)]] ∧
    ∃ n : Int,
      Doc.getField [("t", Value.int 5)] "t" = some (Value.int n) ∧ n ≤ 10 ∧
      ∀ e ∈ [[("t", Value.int 5)], [("t", Value.int 20)]], ∀ m : Int,
        Doc.getField e "t" = some (Value.int m) → m ≤ 10 → m ≤ n := by
  have h10 : (10 : Int) ≠ 0 := by decide
  have happ := (c3_get_kline_at_ts_amended
    [[("t", Value.int 5)], [("t", Value.int 20)]] 10 h10).1
  have hres := happ [("t", Value.int 5)] (by decide)
  exact ⟨h10, hres.1, hres.2⟩

/-- C10: calling `get_kline_at_ts` with `ts = 0` is treated exactly like an
omitted timestamp — `if ts:` is false for `0`, the upper-bound filter is
dropped, and the most recent record overall is returned, including records
with timestamp greater than 0. -/
theorem c10_ts_zero_like_omitted :
    (∀ docs : List Doc,
      get_kline_at_ts docs (some 0) = get_kline_at_ts docs none) ∧
    get_kline_at_ts [[("t", Value.int 5)]] (some 0)
      = some [("t", Value.int 5)] :=
  ⟨fun _ => rfl, by decide⟩

/-! ## Claim theorems: kline range query -/

/-- C4: `get_kline_between_ts` returns exactly the stored records whose
timestamp lies in `[start, end]` (as a permutation of that filtered set),
in non-decreasing timestamp order, with the bookkeeping fields
`create_time` and `update_time` stripped from the projection, and it
returns the empty list (not an error) when nothing is in range. -/
theorem c4_get_kline_between_ts (docs : List Doc) (start fin : Int) :
    (∀ d ∈ get_kline_between_ts docs start fin,
      ∃ n : Int, d.getField "t" = some (Value.int n) ∧ start ≤ n ∧ n ≤ fin) ∧
    (get_kline_between_ts docs start fin).Pairwise
      (fun a b => optLe (keyVal a "t") (keyVal b "t") = true) ∧
    (get_kline_between_ts docs start fin).Perm
      ((docs.filter (fun d =>
          match d.getField "t" with
          | some (Value.int n) => decide (start ≤ n) && decide (n ≤ fin)
          | _ => false)).map
        (fun d => d.dropFields ["create_time", "update_time"])) ∧
    (∀ d ∈ get_kline_between_ts docs start fin,
      d.getField "create_time" = none ∧ d.getField "update_time" = none) ∧
    (docs.filter (fun d =>
        docMatches d [("t", Cond.range (some start) (some fin))]) = [] →
      get_kline_between_ts docs start fin = []) := by
  have hpred : ∀ d : Doc,
      docMatches d [("t", Cond.range (some start) (some fin))]
        = (match d.getField "t" with
           | some (Value.int n) => decide (start ≤ n) && decide (n ≤ fin)
           | _ => false) := by
    intro d
    rw [docMatches_singleton]
    cases h : d.getField "t" with
    | none => simp [condHolds]
    | some w => cases w <;> simp [condHolds, Option.all]
  have hres : get_kline_between_ts docs start fin
      = (sortAscBy "t" (docs.filter (fun d =>
          docMatches d [("t", Cond.range (some start) (some fin))]))).map
        (fun d => d.dropFields ["create_time", "update_time"]) := rfl
  have hct : (["create_time", "update_time"] : List String).contains "t"
      = false := by decide
  refine ⟨?_, ?_, ?_, ?_, ?_⟩
  · intro d hd
    rw [hres] at hd
    obtain ⟨d0, hd0, rfl⟩ := List.mem_map.mp hd
    have hd0f := (sortAscBy_perm "t" _).mem_iff.mp hd0
    have hd0m := (List.mem_filter.mp hd0f).2
    rw [docMatches_singleton] at hd0m
    obtain ⟨n, hgf, hsn, hnf⟩ := (condHolds_range_iff _ start fin).mp
      (by simpa using hd0m)
    refine ⟨n, ?_, hsn, hnf⟩
    rw [getField_dropFields, hct]
    simpa using hgf
  · rw [hres]
    refine List.Pairwise.map _ ?_ (sortAscBy_pairwise "t" _)
    intro a b hab
    rw [keyVal_dropFields _ _ _ hct, keyVal_dropFields _ _ _ hct]
    exact hab
  · rw [hres]
    have h1 : (sortAscBy "t" (docs.filter (fun d =>
        docMatches d [("t", Cond.range (some start) (some fin))]))).Perm
        (docs.filter (fun d =>
          docMatches d [("t", Cond.range (some start) (some fin))])) :=
      sortAscBy_perm "t" _
    have h2 := h1.map (fun d => d.dropFields ["create_time", "update_time"])
    have h3 : docs.filter (fun d =>
        docMatches d [("t", Cond.range (some start) (some fin))])
        = docs.filter (fun d =>
          match d.getField "t" with
          | some (Value.int n) => decide (start ≤ n) && decide (n ≤ fin)
          | _ => false) := by
      apply List.filter_congr
      intro d _
      exact hpred d
    refine h2.trans ?_
    rw [h3]
  · intro d hd
    rw [hres] at hd
    obtain ⟨d0, _, rfl⟩ := List.mem_map.mp hd
    constructor
    · rw [getField_dropFields]
      simp
    · rw [getField_dropFields]
      simp
  · intro h
    rw [hres, h]
    rfl

/-- C4 witness: a concrete three-record partition queried on `[1, 5]`. -/
theorem c4_get_kline_between_ts_witness :
    (∀ d ∈ get_kline_between_ts
        [[("t", Value.int 3), ("create_time", Value.int 99)],
         [("t", Value.int 7)], [("t", Value.int 1)]] 1 5,
      ∃ n : Int, d.getField "t" = some (Value.int n) ∧ 1 ≤ n ∧ n ≤ 5) ∧
    (get_kline_between_ts
        [[("t", Value.int 3), ("create_time", Value.int 99)],
         [("t", Value.int 7)], [("t", Value.int 1)]] 1 5).Pairwise
      (fun a b => optLe (keyVal a "t") (keyVal b "t") = true) :=
  ⟨(c4_get_kline_between_ts
      [[("t", Value.int 3), ("create_time", Value.int 99)],
       [("t", Value.int 7)], [("t", Value.int 1)]] 1 5).1,
   (c4_get_kline_between_ts
      [[("t", Value.int 3), ("create_time", Value.int 99)],
       [("t", Value.int 7)], [("t", Value.int 1)]] 1 5).2.1⟩

/-! ## Claim theorems: asset upsert -/

/-- C8: calling `update_asset` twice with identical arguments leaves the
store observably equal to calling it once — the same documents exist with
the same fields and values, the removals being re-applied idempotently.
The balances map currency codes and the removal list names currencies, so
neither mentions the key fields `platform`, `account`, `timestamp`. -/
theorem c8_update_asset_idem (docs : List Doc) (platform account : String)
    (asset : List (String × Value)) (timestamp : Int) (delete : List String)
    (hs : ∀ p ∈ asset, p.1 ≠ "platform" ∧ p.1 ≠ "account" ∧ p.1 ≠ "timestamp")
    (hdel : ∀ x ∈ delete,
      x ≠ "platform" ∧ x ≠ "account" ∧ x ≠ "timestamp") :
    docsObsEq
      (update_asset (update_asset docs platform account asset timestamp
          delete).1 platform account asset timestamp delete).1
      (update_asset docs platform account asset timestamp delete).1 := by
  have hu : ∀ x ∈ (if delete.isEmpty then ([] : List String) else delete),
      x ≠ "platform" ∧ x ≠ "account" ∧ x ≠ "timestamp" := by
    intro x hx
    by_cases hde : delete.isEmpty
    · rw [if_pos hde] at hx
      exact absurd hx (List.not_mem_nil x)
    · rw [if_neg hde] at hx
      exact hdel x hx
  have hm := assetTr_matches platform account timestamp asset
    (if delete.isEmpty then ([] : List String) else delete) hs hu
  have hid := assetTr_idem asset
    (if delete.isEmpty then ([] : List String) else delete)
  cases hfirst : updateFirst docs (assetSpec platform account timestamp)
      (fun d => (applySets d asset).dropFields
        (if delete.isEmpty then ([] : List String) else delete)) with
  | some ds =>
    have h1 : update_asset docs platform account asset timestamp delete
        = (ds, 1) := by
      simp only [update_asset, updateDocs]
      rw [hfirst]
    obtain ⟨ds2, hds2, hobs⟩ := updateFirst_idem
      (assetSpec platform account timestamp) _ hm hid docs ds hfirst
    have h2 : update_asset ds platform account asset timestamp delete
        = (ds2, 1) := by
      simp only [update_asset, updateDocs]
      rw [hds2]
    rw [h1, h2]
    exact hobs
  | none =>
    have hnone := (updateFirst_eq_none_iff docs
      (assetSpec platform account timestamp) _).mp hfirst
    have h1 : update_asset docs platform account asset timestamp delete
        = (docs ++ [(applySets (eqDoc (assetSpec platform account timestamp))
            asset).dropFields
            (if delete.isEmpty then ([] : List String) else delete)], 1) := by
      simp only [update_asset, updateDocs]
      rw [hfirst]
      rfl
    have hmatch2 := hm _ (assetSpec_eqDoc_matches platform account timestamp)
    have hone : updateFirst
        [(applySets (eqDoc (assetSpec platform account timestamp))
            asset).dropFields
            (if delete.isEmpty then ([] : List String) else delete)]
        (assetSpec platform account timestamp)
        (fun d => (applySets d asset).dropFields
          (if delete.isEmpty then ([] : List String) else delete))
        = some [(applySets ((applySets
            (eqDoc (assetSpec platform account timestamp))
            asset).dropFields
            (if delete.isEmpty then ([] : List String) else delete))
            asset).dropFields
            (if delete.isEmpty then ([] : List String) else delete)] := by
      rw [updateFirst]
      rw [if_pos hmatch2]
    have happ := updateFirst_append_of_none
      (assetSpec platform account timestamp)
      (fun d => (applySets d asset).dropFields
        (if delete.isEmpty then ([] : List String) else delete))
      docs
      [(applySets (eqDoc (assetSpec platform account timestamp))
          asset).dropFields
          (if delete.isEmpty then ([] : List String) else delete)]
      hnone
    have h2 : update_asset (docs ++
        [(applySets (eqDoc (assetSpec platform account timestamp))
            asset).dropFields
            (if delete.isEmpty then ([] : List String) else delete)])
        platform account asset timestamp delete
        = (docs ++ [(applySets ((applySets
            (eqDoc (assetSpec platform account timestamp))
            asset).dropFields
            (if delete.isEmpty then ([] : List String) else delete))
            asset).dropFields
            (if delete.isEmpty then ([] : List String) else delete)], 1) := by
      simp only [update_asset, updateDocs]
      rw [happ, hone]
      rfl
    rw [h1, h2]
    exact docsObsEq_append_left docs
      (docsObsEq_cons_head (fun k => hid _ k) [])

/-- C8 witness: merging a BTC balance with an ETH removal twice onto a
store holding a prior document. -/
theorem c8_update_asset_idem_witness :
    (∀ p ∈ [("BTC", Value.bal "1" "0" "1")],
      p.1 ≠ "platform" ∧ p.1 ≠ "account" ∧ p.1 ≠ "timestamp") ∧
    (∀ x ∈ ["ETH"], x ≠ "platform" ∧ x ≠ "account" ∧ x ≠ "timestamp") ∧
    docsObsEq
      (update_asset (update_asset [assetPrior] "binance" "a@x.com"
          [("BTC", Value.bal "1" "0" "1")] 1000 ["ETH"]).1
        "binance" "a@x.com" [("BTC", Value.bal "1" "0" "1")] 1000 ["ETH"]).1
      (update_asset [assetPrior] "binance" "a@x.com"
        [("BTC", Value.bal "1" "0" "1")] 1000 ["ETH"]).1 :=
  ⟨by decide, by decide,
   c8_update_asset_idem [assetPrior] "binance" "a@x.com"
     [("BTC", Value.bal "1" "0" "1")] 1000 ["ETH"]
     (by decide) (by decide)⟩

/-- C9: `update_asset` locates the document by exact match on
(platform, account, timestamp), sets the given currency fields, removes the
currencies in the removal list, upserts a new document when none matches,
and returns the affected-document count: merging a BTC balance with
`delete = ["ETH"]` onto a prior document holding `ETH` leaves a document
with `ETH` absent and `BTC` equal to the given value; a document with a
different timestamp is left untouched and a fresh document is appended. -/
theorem c9_update_asset_eval :
    (update_asset [assetPrior] "binance" "a@x.com"
        [("BTC", Value.bal "1" "0" "1")] 1000 ["ETH"]).2 = 1 ∧
    (update_asset [assetPrior] "binance" "a@x.com"
        [("BTC", Value.bal "1" "0" "1")] 1000 ["ETH"]).1.map
        (fun d => (d.getField "ETH", d.getField "BTC"))
      = [(none, some (Value.bal "1" "0" "1"))] ∧
    (update_asset [] "binance" "a@x.com" [("BTC", Value.bal "1" "0" "1")]
        1000 []).1
      = [[("platform", Value.str "binance"),
          ("account", Value.str "a@x.com"),
          ("timestamp", Value.int 1000),
          ("BTC", Value.bal "1" "0" "1")]] ∧
    (update_asset [assetPriorOtherTs] "binance" "a@x.com"
        [("BTC", Value.bal "1" "0" "1")] 1000 ["ETH"]).1
      = [assetPriorOtherTs,
         [("platform", Value.str "binance"),
          ("account", Value.str "a@x.com"),
          ("timestamp", Value.int 1000),
          ("BTC", Value.bal "1" "0" "1")]] :=
  ⟨by decide, by decide, by decide, by decide⟩

/-! ## Claim theorems: order lifecycle update -/

/-- C1: evaluation at a failing input. `update_order_infos` writes the
order's status into the `"s"` field, which holds the strategy per the
stored document layout, and leaves the `"st"` status field unchanged: after
updating an order whose in-memory status is `"filled"`, the stored status
field still reads `"new"` while the stored strategy field reads `"filled"`.
The remaining quantity `"r"` is updated and the price `"pr"` is untouched
as claimed. -/
theorem c1_update_order_infos_eval :
    orderBefore.strategy = "sma" ∧ orderBefore.status = "new" ∧
    orderAfter.status = "filled" ∧
    (update_order_infos [orderDoc orderBefore] orderAfter).2 = 1 ∧
    (update_order_infos [orderDoc orderBefore] orderAfter).1.map
        (fun d => (d.getField "st", d.getField "s", d.getField "pr",
          d.getField "r"))
      = [(some (Value.str "new"), some (Value.str "filled"),
          some (Value.int 100), some (Value.int 0))] :=
  ⟨rfl, rfl, rfl, by decide, by decide⟩

/-! ## Claim theorems: snapshot default window -/

/-- C2: evaluation at a failing input. With both bounds omitted,
`get_asset_snapshot` defaults the start of the window to
`end - 60 * 60 * 24 = end - 86400`, not `end - 86400000`: a snapshot taken
one hour (3 600 000 ms) before `now`, well inside the claimed 24-hour
window, is not returned, while a snapshot exactly 86 400 ms old is. -/
theorem c2_default_window_eval :
    get_asset_snapshot [snapshotHourOld] "binance" "a@x.com" none none
        1700000000000 = [] ∧
    (1700000000000 - 86400000 : Int) ≤ 1700000000000 - 3600000 ∧
    (1700000000000 - 3600000 : Int) ≤ 1700000000000 ∧
    get_asset_snapshot [snapshotAtCodeCutoff] "binance" "a@x.com" none none
        1700000000000
      = [[("timestamp", Value.int (1700000000000 - 86400))]] :=
  ⟨by decide, by decide, by decide, by decide⟩

end Quant
